import Mathlib

/-!
Verification development for the document-QA retrieval pipeline.

The embedding models, over `List Char` (strings) and `ℚ`/`ℝ` (idealised
JavaScript numbers):

* `cleanText`, `splitSections`, `windowLoop`, `splitTextIntoChunks` — the
  chunker from `src/app/api/chat/route.ts` (`cleanText`,
  `splitTextIntoChunks`).
* `dotProduct`, `cosineSimilarity`, `rankPairs`, `rankDocs`,
  `findSimilarDocuments` — the vector retriever from the same file
  (`cosineSimilarity`, `findSimilarDocuments`); the sort models the stable
  `Array.prototype.sort` with comparator `(a, b) => b.score - a.score`.
* `Doc`, `Citation`, `mkCitation`, `docsOfFile`, `buildDocs`,
  `chatPipeline` — the `POST` pure decision ladder of the handler; the external
  collaborators (form parsing, pdf-parse, the embedding model, the LLM) are
  parameters: `avail` models presence of the API key and models,
  `embedResult` the outcome of the embedding calls, `llm` the generation
  call on the assembled prompt.
* `parenScan`, `textMarkerScan`, `markerParenScan`, `tjScan`,
  `wordSequenceScan`, `extractCore`, `extractBasicPdfText` — the binary
  text scavenger from `src/unnamed/part_005` (`extractBasicPdfText`); the
  `atob` base64 decode is an external builtin and is modelled by the
  `Option (List Char)` argument (`none` = decoding threw).

Scanning loops are written with an explicit fuel argument (always
instantiated with the length of the scanned list, which suffices because
every step consumes at least one character); this keeps every definition
structurally recursive and kernel-evaluable.
-/

/-- Character class of the JavaScript regex `\s`. -/
def isJsWhitespace (c : Char) : Bool :=
  c = ' ' || c = '\t' || c = '\n' || c = '\x0d' ||
  c.toNat = 0x0B || c.toNat = 0x0C || c.toNat = 0xA0 || c.toNat = 0x1680 ||
  (0x2000 ≤ c.toNat && c.toNat ≤ 0x200A) || c.toNat = 0x2028 ||
  c.toNat = 0x2029 || c.toNat = 0x202F || c.toNat = 0x205F ||
  c.toNat = 0x3000 || c.toNat = 0xFEFF

/-- Character class `[\x20-\x7E]` (printable ASCII). -/
def isPrintableAscii (c : Char) : Bool :=
  0x20 ≤ c.toNat && c.toNat ≤ 0x7E

/-- String.prototype.trim: drop whitespace from both ends. -/
def jsTrim (l : List Char) : List Char :=
  ((l.dropWhile isJsWhitespace).reverse.dropWhile isJsWhitespace).reverse

/-- Worker for `collapseWhitespace`; the flag records whether the previous
character was whitespace (i.e. we are inside a run already replaced). -/
def collapseWhitespaceAux : Bool → List Char → List Char
  | _, [] => []
  | prev, c :: rest =>
    if isJsWhitespace c then
      if prev then collapseWhitespaceAux true rest
      else ' ' :: collapseWhitespaceAux true rest
    else c :: collapseWhitespaceAux false rest

/-- Model of `replace(/\s+/g, ' ')`: every maximal whitespace run becomes one space. -/
def collapseWhitespace (l : List Char) : List Char :=
  collapseWhitespaceAux false l

/-- The characters removed by the first replace of `cleanText` (U+FFFD, U+FFFE, U+FFFF). -/
def isReplacementChar (c : Char) : Bool :=
  c.toNat = 0xFFFD || c.toNat = 0xFFFE || c.toNat = 0xFFFF

/-- The characters kept (not turned into a space) by
`replace(/[^\x20-\x7E\n\t]/g, ' ')`. -/
def isKeptAscii (c : Char) : Bool :=
  isPrintableAscii c || c = '\n' || c = '\t'

/-- Model of `cleanText` from `route.ts`: drop replacement characters, replace
non-ASCII by spaces, collapse whitespace runs, trim. -/
def cleanText (text : List Char) : List Char :=
  jsTrim (collapseWhitespace
    ((text.filter (fun c => !isReplacementChar c)).map
      (fun c => if isKeptAscii c then c else ' ')))

/-- Worker for `splitSections`: `acc` is the current piece (reversed),
`pending` counts the consecutive newlines just read. -/
def splitSectionsAux : List Char → Nat → List Char → List (List Char)
  | acc, pending, [] =>
    if 2 ≤ pending then [acc.reverse, []]
    else [(List.replicate pending '\n' ++ acc).reverse]
  | acc, pending, c :: rest =>
    if c = '\n' then splitSectionsAux acc (pending + 1) rest
    else if 2 ≤ pending then acc.reverse :: splitSectionsAux [c] 0 rest
    else splitSectionsAux (c :: (List.replicate pending '\n' ++ acc)) 0 rest

/-- Model of `split(/\n{2,}/)`: split on maximal runs of two or more newlines. -/
def splitSections (l : List Char) : List (List Char) :=
  splitSectionsAux [] 0 l

/-- Model of `indexOf(c, start)` on a list: position of the first occurrence of `c`
at or after `start`, if any. -/
def indexOfFrom (l : List Char) (c : Char) (start : Nat) : Option Nat :=
  match (l.drop start).findIdx? (fun d => d = c) with
  | some k => some (start + k)
  | none => none

/-- Model of `slice(a, b)` on a list (clamping, as in JavaScript for `a ≤ b`). -/
def jsSlice (l : List Char) (a b : Nat) : List Char :=
  (l.drop a).take (b - a)

/-- The window end used by `splitTextIntoChunks`: the raw cutoff
`index + chunkSize`, extended (when still inside the section) to the next
space character if one exists at or after the cutoff. -/
def windowEnd (sec : List Char) (chunkSize index : Nat) : Nat :=
  let end0 := index + chunkSize
  if end0 < sec.length then
    match indexOfFrom sec ' ' end0 with
    | some j => j
    | none => end0
  else end0

/-- The sliding-window loop of `splitTextIntoChunks` for an oversized
section, with explicit fuel: from `index`, cut at `index + chunkSize`
extended to the next space, trim, emit if non-empty, and advance the
window start by `chunkSize - overlap`. -/
def windowLoop (sec : List Char) (chunkSize overlap : Nat) :
    Nat → Nat → List (List Char)
  | 0, _ => []
  | fuel + 1, index =>
    if index < sec.length then
      let chunk := jsTrim (jsSlice sec index (windowEnd sec chunkSize index))
      let rest := windowLoop sec chunkSize overlap fuel (index + (chunkSize - overlap))
      if chunk = [] then rest else chunk :: rest
    else []

/-- Instrumented variant of `windowLoop` that also records the window start
position of each emitted chunk. -/
def windowLoopPos (sec : List Char) (chunkSize overlap : Nat) :
    Nat → Nat → List (Nat × List Char)
  | 0, _ => []
  | fuel + 1, index =>
    if index < sec.length then
      let chunk := jsTrim (jsSlice sec index (windowEnd sec chunkSize index))
      let rest := windowLoopPos sec chunkSize overlap fuel (index + (chunkSize - overlap))
      if chunk = [] then rest else (index, chunk) :: rest
    else []

/-- Chunks contributed by one section: emitted whole (trimmed) when it fits
in `chunkSize`, otherwise via the sliding window. -/
def chunksOfSection (chunkSize overlap : Nat) (sec : List Char) : List (List Char) :=
  if sec.length ≤ chunkSize then
    if jsTrim sec = [] then [] else [jsTrim sec]
  else windowLoop sec chunkSize overlap sec.length 0

/-- Position-instrumented variant of `chunksOfSection` (positions are
indices into the section). -/
def chunksOfSectionPos (chunkSize overlap : Nat) (sec : List Char) :
    List (Nat × List Char) :=
  if sec.length ≤ chunkSize then
    if jsTrim sec = [] then [] else [(0, jsTrim sec)]
  else windowLoopPos sec chunkSize overlap sec.length 0

/-- Model of `splitTextIntoChunks` from `route.ts`: clean, split on blank lines,
then per section emit whole or slide a window. -/
def splitTextIntoChunks (text : List Char) (chunkSize overlap : Nat) :
    List (List Char) :=
  ((splitSections (cleanText text)).map (chunksOfSection chunkSize overlap)).flatten

/-- Position-instrumented variant of `splitTextIntoChunks`. -/
def splitTextIntoChunksPos (text : List Char) (chunkSize overlap : Nat) :
    List (Nat × List Char) :=
  ((splitSections (cleanText text)).map (chunksOfSectionPos chunkSize overlap)).flatten

/-- A document as built by the `POST` handler: chunk text plus metadata
`source` (file name) and `page` (synthetic page number). -/
structure Doc where
  pageContent : List Char
  source : List Char
  page : Nat
deriving DecidableEq

/-- A citation as emitted in the JSON response. -/
structure Citation where
  text : List Char
  source : List Char
  page : Nat
deriving DecidableEq

/-- The JSON body returned by the `POST` handler: the answer text and,
on the success path only, a citation list. -/
structure ChatResponse where
  text : List Char
  citations : Option (List Citation)
deriving DecidableEq

/-- Model of `a.reduce((sum, val, i) => sum + val * b[i], 0)` for equal-length
vectors (idealised as rationals). -/
def dotProduct (a b : List ℚ) : ℚ :=
  ((a.zip b).map (fun p => p.1 * p.2)).sum

/-- Model of `cosineSimilarity` from `route.ts`: `dot(a,b) / (|a| * |b|)`. -/
noncomputable def cosineSimilarity (a b : List ℚ) : ℝ :=
  ((dotProduct a b : ℚ) : ℝ) /
    (Real.sqrt ((dotProduct a a : ℚ) : ℝ) * Real.sqrt ((dotProduct b b : ℚ) : ℝ))

/-- The stable descending sort of score/value pairs, modelling
`Array.prototype.sort((a, b) => b.score - a.score)` (stable per the
ECMAScript specification): insertion places a pair before the first pair
with a score not above it, so equal scores keep their original order. -/
def rankPairs {α β : Type} [LinearOrder α] (pairs : List (α × β)) : List (α × β) :=
  List.insertionSort (fun p q => q.1 ≤ p.1) pairs

/-- Model of `similarities.map((score, idx) => ({score, doc})).sort(...).slice(0, k)
.map(item => item.doc)` from `findSimilarDocuments`. -/
def rankDocs {α β : Type} [LinearOrder α] (scores : List α) (docs : List β)
    (k : Nat) : List β :=
  ((rankPairs (scores.zip docs)).take k).map Prod.snd

/-- Model of `findSimilarDocuments` from `route.ts`, with the score type and the
similarity function as parameters (the route instantiates `sim` with
`cosineSimilarity`); the embeddings of the documents and of the query are
the results of the external embedding collaborator. -/
def findSimilarDocuments (α : Type) [LinearOrder α]
    (sim : List ℚ → List ℚ → α) (docs : List Doc)
    (docEmbeddings : List (List ℚ)) (queryEmbedding : List ℚ)
    (k : Nat) : List Doc :=
  rankDocs (docEmbeddings.map (fun e => sim queryEmbedding e)) docs k

/-- The citation built for a ranked document (`route.ts` lines 320-324):
first 150 characters of the cleaned chunk plus an unconditional ellipsis,
with `|| "document"` and `|| 1` fallbacks for falsy metadata. -/
def mkCitation (d : Doc) : Citation :=
  ⟨(cleanText d.pageContent).take 150 ++ ("...".toList),
   if d.source = [] then ("document".toList) else d.source,
   if d.page = 0 then 1 else d.page⟩

/-- The documents contributed by one file (`route.ts` lines 236-261):
clean, chunk with size 120 and overlap 15, keep only the first 50 chunks,
and record for chunk `i` the synthetic page `i / 2 + 1`. -/
def docsOfFile (name : List Char) (text : List Char) : List Doc :=
  (((splitTextIntoChunks (cleanText text) 120 15).take 50).enum).filterMap
    (fun p => if jsTrim p.2 = [] then none else some ⟨p.2, name, p.1 / 2 + 1⟩)

def serviceUnavailableMessage : List Char :=
  ("The document analysis service is currently unavailable. Please try again later.").toList

def uploadPromptMessage : List Char :=
  ("Please upload a document to analyze").toList

def noTextContentMessage : List Char :=
  ("I couldn\x27t extract any text content from the file. It might be a scanned document, an image, or contain only non-textual content.").toList

def noUsefulContentMessage : List Char :=
  ("I couldn\x27t extract useful content from the documents. Please try with different files.").toList

def analysisErrorMessage : List Char :=
  ("I encountered an error while analyzing the documents. This might be due to a temporary issue with the analysis service. Please try again later with smaller files.").toList

def llmErrorMessage : List Char :=
  ("I apologize, but I encountered an error while processing your question. Please try asking in a different way or with a simpler question.").toList

/-- The per-file loop of the `POST` handler (each file given as
name/extracted-text): an empty extracted text aborts the request with a
fixed message, otherwise the documents of the file are accumulated in order. -/
def buildDocs : List (List Char × List Char) → Except (List Char) (List Doc)
  | [] => .ok []
  | (name, text) :: rest =>
    if jsTrim text = [] then .error noTextContentMessage
    else
      match buildDocs rest with
      | .error m => .error m
      | .ok ds => .ok (docsOfFile name text ++ ds)

/-- Line 285: the ranking call is made with `k` fixed to 2. -/
def relevantDocsOf (α : Type) [LinearOrder α] (sim : List ℚ → List ℚ → α)
    (docs : List Doc) (docEmbeddings : List (List ℚ))
    (queryEmbedding : List ℚ) : List Doc :=
  findSimilarDocuments α sim docs docEmbeddings queryEmbedding 2

/-- Line 295: the grounding context is the blank-line join of the ranked
chunk texts. -/
def contextOf (α : Type) [LinearOrder α] (sim : List ℚ → List ℚ → α)
    (docs : List Doc) (docEmbeddings : List (List ℚ))
    (queryEmbedding : List ℚ) : List Char :=
  List.intercalate ("\n\n".toList)
    ((relevantDocsOf α sim docs docEmbeddings queryEmbedding).map Doc.pageContent)

/-- Lines 320-324: one citation per ranked document. -/
def citationsOf (α : Type) [LinearOrder α] (sim : List ℚ → List ℚ → α)
    (docs : List Doc) (docEmbeddings : List (List ℚ))
    (queryEmbedding : List ℚ) : List Citation :=
  (relevantDocsOf α sim docs docEmbeddings queryEmbedding).map mkCitation

def templateText : List Char :=
  ("You are a helpful assistant analyzing document content. Use the following pieces of context to answer the question at the end.\nIf you don\x27t know the answer, just say that you don\x27t know, don\x27t try to make up an answer.\nKeep your answer concise and focused on the question.\n\nContext: \x7bcontext\x7d\n\nQuestion: \x7bquestion\x7d\n\nAnswer:").toList

/-- Line 296: the prompt assembled around the context and the question. -/
def promptOf (context question : List Char) : List Char :=
  ("<s>[INST] ").toList ++ templateText ++ ("\n\nContext: ").toList ++ context ++
    ("\n\nQuestion: ").toList ++ question ++ ("\n\nAnswer: [/INST]").toList

/-- The decision ladder of the `POST` handler. External effects are
parameters: `avail` is the presence of the API key and initialised models
(lines 143-149), `files` carries the extracted text of each file (extraction
itself is the external pdf-parse / Blob collaborators), `embedResult` the
outcome of the embedding calls inside `findSimilarDocuments`
(lines 281-292), and `llm` the generation call (lines 301-316). -/
def chatPipeline (α : Type) [LinearOrder α] (sim : List ℚ → List ℚ → α)
    (avail : Bool) (files : List (List Char × List Char))
    (question : List Char)
    (embedResult : Except Unit (List (List ℚ) × List ℚ))
    (llm : List Char → Except Unit (List Char)) : ChatResponse :=
  match avail with
  | false => ⟨serviceUnavailableMessage, none⟩
  | true =>
    if files = [] then ⟨uploadPromptMessage, none⟩
    else
      match buildDocs files with
      | .error m => ⟨m, none⟩
      | .ok docs =>
        if docs = [] then ⟨noUsefulContentMessage, none⟩
        else
          match embedResult with
          | .error _ => ⟨analysisErrorMessage, none⟩
          | .ok (docEmbeddings, queryEmbedding) =>
            let answer :=
              match llm (promptOf (contextOf α sim docs docEmbeddings queryEmbedding) question) with
              | .ok r => r
              | .error _ => llmErrorMessage
            ⟨answer, some (citationsOf α sim docs docEmbeddings queryEmbedding)⟩

/-- The fragment test applied by passes 1-6 of the scavenger: printable
ASCII or whitespace throughout (`/^[\x20-\x7E\s]+$/`) and length above 1. -/
def isTextFragment (f : List Char) : Bool :=
  decide (1 < f.length) && f.all (fun c => isPrintableAscii c || isJsWhitespace c)

/-- Pass 1 scanner: all matches of `\(([^)]+)\)` (leftmost, non-overlapping;
the capture runs to the first closing parenthesis). Fuel-driven; each step
consumes at least one character. -/
def parenScan : Nat → List Char → List (List Char)
  | 0, _ => []
  | _, [] => []
  | fuel + 1, c :: rest =>
    if c = '(' then
      let content := rest.takeWhile (fun d => d ≠ ')')
      let rest2 := rest.dropWhile (fun d => d ≠ ')')
      match rest2 with
      | _ :: tail =>
        if content = [] then parenScan fuel rest
        else content :: parenScan fuel tail
      | [] => parenScan fuel rest
    else parenScan fuel rest

/-- Pass 1 over a whole stream. -/
def parensIn (l : List Char) : List (List Char) :=
  parenScan l.length l

/-- Pass 2 scanner: matches of `\/Text[^(]*\(([^)]+)\)`. -/
def textMarkerScan : Nat → List Char → List (List Char)
  | 0, _ => []
  | _, [] => []
  | fuel + 1, l@(_ :: rest) =>
    if (("/Text").toList).isPrefixOf l then
      match (l.drop 5).dropWhile (fun d => d ≠ '(') with
      | _ :: rest2 =>
        let content := rest2.takeWhile (fun d => d ≠ ')')
        let rest3 := rest2.dropWhile (fun d => d ≠ ')')
        match rest3 with
        | _ :: tail =>
          if content = [] then textMarkerScan fuel rest
          else content :: textMarkerScan fuel tail
        | [] => textMarkerScan fuel rest
      | [] => textMarkerScan fuel rest
    else textMarkerScan fuel rest

/-- Scanner for `marker\s*\(([^)]+)\)` (passes 4, 5 and 6, with markers
`/Tj`, `/Contents` and `BT`). -/
def markerParenScan (marker : List Char) : Nat → List Char → List (List Char)
  | 0, _ => []
  | _, [] => []
  | fuel + 1, l@(_ :: rest) =>
    if marker.isPrefixOf l then
      match (l.drop marker.length).dropWhile isJsWhitespace with
      | '(' :: rest2 =>
        let content := rest2.takeWhile (fun d => d ≠ ')')
        let rest3 := rest2.dropWhile (fun d => d ≠ ')')
        match rest3 with
        | _ :: tail =>
          if content = [] then markerParenScan marker fuel rest
          else content :: markerParenScan marker fuel tail
        | [] => markerParenScan marker fuel rest
      | _ => markerParenScan marker fuel rest
    else markerParenScan marker fuel rest

/-- Parser for the `(?:\([^)]+\)\s*)+\]` part of pass 3: one or more
parenthesised groups, whitespace-separated, closed by a bracket. Returns
the groups and the remainder after the bracket, or `none` when the
pattern does not match here. -/
def tjGroupsLoop : Nat → List Char → Option (List (List Char) × List Char)
  | 0, _ => none
  | fuel + 1, l =>
    match l with
    | '(' :: rest =>
      let content := rest.takeWhile (fun d => d ≠ ')')
      let rest2 := rest.dropWhile (fun d => d ≠ ')')
      match rest2 with
      | _ :: tail =>
        if content = [] then none
        else
          match tail.dropWhile isJsWhitespace with
          | ']' :: tail2 => some ([content], tail2)
          | afterWS =>
            match tjGroupsLoop fuel afterWS with
            | some (groups, rem) => some (content :: groups, rem)
            | none => none
      | [] => none
    | _ => none

/-- Pass 3 scanner: matches of `\/TJ\s*\[\s*(?:\([^)]+\)\s*)+\]`, with the
inner captures extracted and filtered exactly as the code does. -/
def tjScan : Nat → List Char → List (List Char)
  | 0, _ => []
  | _, [] => []
  | fuel + 1, l@(_ :: rest) =>
    if (("/TJ").toList).isPrefixOf l then
      match (l.drop 3).dropWhile isJsWhitespace with
      | '[' :: rest2 =>
        match tjGroupsLoop rest2.length (rest2.dropWhile isJsWhitespace) with
        | some (groups, rem) => groups.filter isTextFragment ++ tjScan fuel rem
        | none => tjScan fuel rest
      | _ => tjScan fuel rest
    else tjScan fuel rest

/-- Character class of pass 7: letters, digits, comma, dot, whitespace and the apostrophe. -/
def isWordSequenceChar (c : Char) : Bool :=
  c.isAlpha || c.isDigit || c = ',' || c = '.' || c = Char.ofNat 39 ||
    isJsWhitespace c

/-- Pass 7 scanner: parenthesised runs of three or more word-like characters. -/
def wordSequenceScan : Nat → List Char → List (List Char)
  | 0, _ => []
  | _, [] => []
  | fuel + 1, c :: rest =>
    if c = '(' then
      let content := rest.takeWhile isWordSequenceChar
      match rest.drop content.length with
      | ')' :: tail =>
        if 3 ≤ content.length then content :: wordSequenceScan fuel tail
        else wordSequenceScan fuel rest
      | _ => wordSequenceScan fuel rest
    else wordSequenceScan fuel rest

/-- Worker for `jsSplitWhitespace`. -/
def jsSplitWhitespaceAux : Nat → List Char → List Char → List (List Char)
  | 0, acc, _ => [acc.reverse]
  | _, acc, [] => [acc.reverse]
  | fuel + 1, acc, c :: rest =>
    if isJsWhitespace c then
      acc.reverse :: jsSplitWhitespaceAux fuel [] (rest.dropWhile isJsWhitespace)
    else jsSplitWhitespaceAux fuel (c :: acc) rest

/-- Model of `split(/\s+/)`: pieces between maximal whitespace runs (with empty
boundary pieces, as in JavaScript). -/
def jsSplitWhitespace (l : List Char) : List (List Char) :=
  jsSplitWhitespaceAux l.length [] l

/-- The pass-7 inclusion test: `match[1].split(/\s+/).length > 2`. -/
def hasMultipleWords (f : List Char) : Bool :=
  decide (2 < (jsSplitWhitespace f).length)

/-- All text fragments collected by the seven passes, in pass order, each
filtered as in the code. -/
def textFragments (d : List Char) : List (List Char) :=
  (parensIn d).filter isTextFragment ++
  (textMarkerScan d.length d).filter isTextFragment ++
  tjScan d.length d ++
  (markerParenScan (("/Tj").toList) d.length d).filter isTextFragment ++
  (markerParenScan (("/Contents").toList) d.length d).filter isTextFragment ++
  (markerParenScan (("BT").toList) d.length d).filter isTextFragment ++
  (wordSequenceScan d.length d).filter hasMultipleWords

/-- Model of `replace(/\\n/g, '\n')`. -/
def unescapeNewline : List Char → List Char
  | '\\' :: 'n' :: rest => '\n' :: unescapeNewline rest
  | c :: rest => c :: unescapeNewline rest
  | [] => []

/-- Model of the removal of escaped carriage returns (backslash-r pairs). -/
def removeEscapedReturn : List Char → List Char
  | '\\' :: 'r' :: rest => removeEscapedReturn rest
  | c :: rest => c :: removeEscapedReturn rest
  | [] => []

/-- Model of `replace(/\\\(/g, '(')`. -/
def unescapeOpenParen : List Char → List Char
  | '\\' :: '(' :: rest => '(' :: unescapeOpenParen rest
  | c :: rest => c :: unescapeOpenParen rest
  | [] => []

/-- Model of `replace(/\\\)/g, ')')`. -/
def unescapeCloseParen : List Char → List Char
  | '\\' :: ')' :: rest => ')' :: unescapeCloseParen rest
  | c :: rest => c :: unescapeCloseParen rest
  | [] => []

/-- The clean-up chain applied to the joined fragments (lines 93-100 of
the scavenger): unescape, drop remaining backslashes, collapse whitespace,
trim. -/
def cleanupExtracted (l : List Char) : List Char :=
  jsTrim (collapseWhitespace
    ((unescapeCloseParen (unescapeOpenParen (removeEscapedReturn (unescapeNewline l)))).filter
      (fun c => c ≠ '\\')))

/-- Sentence-ending characters of the split regex `[.!?]\s+`. -/
def isSentenceEnd (c : Char) : Bool :=
  c = '.' || c = '!' || c = '?'

/-- Worker for `splitSentences`: a sentence ends at a `.`/`!`/`?` that is
followed by whitespace (the terminator and the whitespace run are
consumed); otherwise the character stays in the current sentence. -/
def splitSentencesAux : Nat → List Char → List Char → List (List Char)
  | 0, acc, _ => [acc.reverse]
  | _, acc, [] => [acc.reverse]
  | fuel + 1, acc, c :: rest =>
    if isSentenceEnd c then
      match rest with
      | d :: _ =>
        if isJsWhitespace d then
          acc.reverse :: splitSentencesAux fuel [] (rest.dropWhile isJsWhitespace)
        else splitSentencesAux fuel (c :: acc) rest
      | [] => splitSentencesAux fuel (c :: acc) rest
    else splitSentencesAux fuel (c :: acc) rest

/-- Model of `split(/[.!?]\s+/)` from line 103 of the scavenger. -/
def splitSentences (l : List Char) : List (List Char) :=
  splitSentencesAux l.length [] l

/-- Worker for `dedupKeepFirst`: `seen` holds the values already emitted. -/
def dedupKeepFirstAux {γ : Type} [DecidableEq γ] : List γ → List γ → List γ
  | _, [] => []
  | seen, a :: rest =>
    if a ∈ seen then dedupKeepFirstAux seen rest
    else a :: dedupKeepFirstAux (a :: seen) rest

/-- Model of `Array.from(new Set(l))`: order-preserving deduplication keeping the
first occurrence of each distinct value. -/
def dedupKeepFirst {γ : Type} [DecidableEq γ] (l : List γ) : List γ :=
  dedupKeepFirstAux [] l

/-- The scavenger body on a decoded byte stream: collect fragments from all
passes, join with spaces, clean up, then deduplicate at sentence
granularity and re-join with `". "`. -/
def extractCore (decoded : List Char) : List Char :=
  List.intercalate ((". ").toList)
    (dedupKeepFirst (splitSentences
      (cleanupExtracted (List.intercalate ((" ").toList) (textFragments decoded)))))

def decodeErrorMessage : List Char :=
  ("Error decoding PDF data").toList

def scannedMessage : List Char :=
  ("This PDF file doesn\x27t contain easily extractable text. It might be scanned or image-based.").toList

def unableMessage : List Char :=
  ("Unable to extract meaningful text from this PDF.").toList

/-- Model of `extractBasicPdfText` from `src/unnamed/part_005`, as a function of the
outcome of the external base64 decode (`none` = `atob` threw): a fixed
message on decode failure, the scanned-or-image-based placeholder when the
extracted text is shorter than 10 characters, the extracted text
otherwise (with the dead `|| "Unable..."` fallback modelled faithfully). -/
def extractBasicPdfText (decodeResult : Option (List Char)) : List Char :=
  match decodeResult with
  | none => decodeErrorMessage
  | some decoded =>
    let extractedText := extractCore decoded
    if extractedText.length < 10 then scannedMessage
    else if extractedText = [] then unableMessage
    else extractedText

/-- Concrete candidate document `b` of the cosine-ranking example in the spec. -/
def exDocB : Doc := ⟨("b").toList, ("doc").toList, 1⟩

/-- Concrete candidate document `c` of the cosine-ranking example in the spec. -/
def exDocC : Doc := ⟨("c").toList, ("doc").toList, 2⟩

theorem mem_dropWhile_of_not {α : Type} {p : α → Bool} :
    ∀ {l : List α} {c : α}, c ∈ l → p c = false → c ∈ l.dropWhile p := by
  intro l
  induction l with
  | nil => intro c h; cases h
  | cons a t ih =>
    intro c h hc
    rcases List.mem_cons.mp h with rfl | h
    · simp [List.dropWhile, hc]
    · by_cases ha : p a
      · simpa [List.dropWhile, ha] using ih h hc
      · simp only [List.dropWhile, ha]
        exact List.mem_cons_of_mem a h

theorem dropWhile_eq_nil_mem {α : Type} {p : α → Bool} :
    ∀ {l : List α}, l.dropWhile p = [] → ∀ c ∈ l, p c = true := by
  intro l
  induction l with
  | nil => intro _ c h; cases h
  | cons a t ih =>
    intro h c hc
    by_cases ha : p a
    · rcases List.mem_cons.mp hc with rfl | hc
      · exact ha
      · exact ih (by simpa [List.dropWhile, ha] using h) c hc
    · simp [List.dropWhile, ha] at h

theorem mem_jsTrim {l : List Char} {c : Char} (h : c ∈ l)
    (hw : isJsWhitespace c = false) : c ∈ jsTrim l := by
  unfold jsTrim
  have h1 : c ∈ l.dropWhile isJsWhitespace := mem_dropWhile_of_not h hw
  have h2 : c ∈ (l.dropWhile isJsWhitespace).reverse := List.mem_reverse.mpr h1
  exact List.mem_reverse.mpr (mem_dropWhile_of_not h2 hw)

theorem jsTrim_eq_nil {l : List Char} (h : jsTrim l = []) :
    ∀ c ∈ l, isJsWhitespace c = true := by
  intro c hc
  by_contra hw
  have hw' : isJsWhitespace c = false := by
    cases hx : isJsWhitespace c
    · rfl
    · exact absurd hx hw
  have : c ∈ jsTrim l := mem_jsTrim hc hw'
  rw [h] at this
  cases this

theorem jsTrim_subset {l : List Char} {c : Char} (h : c ∈ jsTrim l) : c ∈ l := by
  unfold jsTrim at h
  have h1 := (List.dropWhile_sublist isJsWhitespace).subset (List.mem_reverse.mp h)
  exact (List.dropWhile_sublist isJsWhitespace).subset (List.mem_reverse.mp h1)

theorem mem_collapseWhitespaceAux {c : Char} :
    ∀ {l : List Char} {b : Bool}, c ∈ collapseWhitespaceAux b l →
      c = ' ' ∨ (c ∈ l ∧ isJsWhitespace c = false) := by
  intro l
  induction l with
  | nil => intro b h; cases h
  | cons a t ih =>
    intro b h
    by_cases ha : isJsWhitespace a
    · simp only [collapseWhitespaceAux, ha, if_true] at h
      cases b with
      | true =>
        rcases ih h with h' | ⟨h1, h2⟩
        · exact Or.inl h'
        · exact Or.inr ⟨List.mem_cons_of_mem a h1, h2⟩
      | false =>
        rcases List.mem_cons.mp h with rfl | h
        · exact Or.inl rfl
        · rcases ih h with h' | ⟨h1, h2⟩
          · exact Or.inl h'
          · exact Or.inr ⟨List.mem_cons_of_mem a h1, h2⟩
    · simp only [collapseWhitespaceAux, ha, if_false] at h
      rcases List.mem_cons.mp h with rfl | h
      · exact Or.inr ⟨List.mem_cons_self c t, by simpa using ha⟩
      · rcases ih h with h' | ⟨h1, h2⟩
        · exact Or.inl h'
        · exact Or.inr ⟨List.mem_cons_of_mem a h1, h2⟩

theorem newline_not_mem_cleanText (text : List Char) : '\n' ∉ cleanText text := by
  intro h
  have h1 := jsTrim_subset h
  rcases mem_collapseWhitespaceAux h1 with h2 | ⟨_, h3⟩
  · cases h2
  · simp [isJsWhitespace] at h3

theorem splitSectionsAux_no_newline :
    ∀ {l : List Char} (acc : List Char), '\n' ∉ l →
      splitSectionsAux acc 0 l = [acc.reverse ++ l] := by
  intro l
  induction l with
  | nil => intro acc _; simp [splitSectionsAux]
  | cons c rest ih =>
    intro acc h
    have hc : ¬(c = '\n') := fun he => h (he ▸ List.mem_cons_self c rest)
    have hr : '\n' ∉ rest := fun hm => h (List.mem_cons_of_mem c hm)
    simp only [splitSectionsAux, hc, if_false]
    rw [if_neg (by omega : ¬(2 ≤ 0))]
    simpa using ih (c :: acc) hr

theorem splitSections_cleanText (text : List Char) :
    splitSections (cleanText text) = [cleanText text] := by
  unfold splitSections
  simpa using splitSectionsAux_no_newline [] (newline_not_mem_cleanText text)

theorem rankPairs_sorted {α β : Type} [LinearOrder α] (l : List (α × β)) :
    List.Sorted (fun p q => q.1 ≤ p.1) (rankPairs l) := by
  haveI : IsTotal (α × β) (fun p q => q.1 ≤ p.1) := ⟨fun a b => le_total b.1 a.1⟩
  haveI : IsTrans (α × β) (fun p q => q.1 ≤ p.1) := ⟨fun a b c h1 h2 => le_trans h2 h1⟩
  exact List.sorted_insertionSort _ l

theorem rankPairs_perm {α β : Type} [LinearOrder α] (l : List (α × β)) :
    (rankPairs l).Perm l :=
  List.perm_insertionSort _ l

theorem filter_orderedInsert {α β : Type} [LinearOrder α] (s : α) (p : α × β) :
    ∀ L : List (α × β),
      (List.orderedInsert (fun p q => q.1 ≤ p.1) p L).filter (fun x => decide (x.1 = s)) =
        if p.1 = s then p :: L.filter (fun x => decide (x.1 = s))
        else L.filter (fun x => decide (x.1 = s)) := by
  intro L
  induction L with
  | nil =>
    by_cases hp : p.1 = s <;> simp [List.orderedInsert, List.filter_cons, hp]
  | cons q t ih =>
    by_cases hr : q.1 ≤ p.1
    · have hins : List.orderedInsert (fun p q => q.1 ≤ p.1) p (q :: t) = p :: q :: t := by
        simp [List.orderedInsert, hr]
      rw [hins]
      by_cases hp : p.1 = s <;> by_cases hq : q.1 = s <;>
        simp [List.filter_cons, hp, hq]
    · have hins : List.orderedInsert (fun p q => q.1 ≤ p.1) p (q :: t) =
          q :: List.orderedInsert (fun p q => q.1 ≤ p.1) p t := by
        simp [List.orderedInsert, hr]
      rw [hins]
      have hlt : p.1 < q.1 := lt_of_not_le hr
      by_cases hp : p.1 = s
      · by_cases hq : q.1 = s
        · exact absurd (hp.trans hq.symm) (ne_of_lt hlt)
        · simp [List.filter_cons, hp, hq, ih]
      · by_cases hq : q.1 = s <;> simp [List.filter_cons, hp, hq, ih]

theorem rankPairs_filter {α β : Type} [LinearOrder α] (s : α) :
    ∀ l : List (α × β),
      (rankPairs l).filter (fun x => decide (x.1 = s)) =
        l.filter (fun x => decide (x.1 = s)) := by
  intro l
  induction l with
  | nil => rfl
  | cons p t ih =>
    have hstep : rankPairs (p :: t) = List.orderedInsert (fun p q => q.1 ≤ p.1) p (rankPairs t) := rfl
    rw [hstep, filter_orderedInsert s p (rankPairs t), ih]
    by_cases hp : p.1 = s <;> simp [List.filter_cons, hp]

theorem mem_rankDocs {α β : Type} [LinearOrder α] {scores : List α}
    {docs : List β} {k : Nat} {b : β} (h : b ∈ rankDocs scores docs k) :
    b ∈ docs := by
  unfold rankDocs at h
  rcases List.mem_map.mp h with ⟨p, hp, rfl⟩
  have h1 : p ∈ rankPairs (scores.zip docs) := List.mem_of_mem_take hp
  have h2 : p ∈ scores.zip docs := (rankPairs_perm _).mem_iff.mp h1
  obtain ⟨a, b⟩ := p
  exact (List.of_mem_zip h2).2

theorem mem_dedupKeepFirstAux {γ : Type} [DecidableEq γ] {a : γ} :
    ∀ {l seen : List γ}, a ∈ dedupKeepFirstAux seen l ↔ (a ∈ l ∧ a ∉ seen) := by
  intro l
  induction l with
  | nil => intro seen; simp [dedupKeepFirstAux]
  | cons b t ih =>
    intro seen
    by_cases hb : b ∈ seen
    · simp only [dedupKeepFirstAux, hb, if_true]
      rw [ih]
      constructor
      · rintro ⟨h1, h2⟩
        exact ⟨List.mem_cons_of_mem b h1, h2⟩
      · rintro ⟨h1, h2⟩
        rcases List.mem_cons.mp h1 with rfl | h1
        · exact absurd hb h2
        · exact ⟨h1, h2⟩
    · simp only [dedupKeepFirstAux, hb, if_false]
      constructor
      · intro h
        rcases List.mem_cons.mp h with rfl | h
        · exact ⟨List.mem_cons_self a t, hb⟩
        · rcases ih.mp h with ⟨h1, h2⟩
          refine ⟨List.mem_cons_of_mem b h1, fun hs => h2 (List.mem_cons_of_mem b hs)⟩
      · rintro ⟨h1, h2⟩
        rcases List.mem_cons.mp h1 with rfl | h1
        · exact List.mem_cons_self a _
        · by_cases hab : a = b
          · subst hab; exact List.mem_cons_self a _
          · exact List.mem_cons_of_mem b (ih.mpr ⟨h1, by simp [hab, h2]⟩)

theorem nodup_dedupKeepFirstAux {γ : Type} [DecidableEq γ] :
    ∀ {l seen : List γ}, (dedupKeepFirstAux seen l).Nodup := by
  intro l
  induction l with
  | nil => intro seen; simp [dedupKeepFirstAux]
  | cons b t ih =>
    intro seen
    by_cases hb : b ∈ seen
    · simpa [dedupKeepFirstAux, hb] using ih
    · simp only [dedupKeepFirstAux, hb, if_false]
      refine List.Nodup.cons ?_ ih
      intro hmem
      exact (mem_dedupKeepFirstAux.mp hmem).2 (List.mem_cons_self b seen)

theorem dedupKeepFirstAux_congr {γ : Type} [DecidableEq γ] :
    ∀ {l s1 s2 : List γ}, (∀ x, x ∈ s1 ↔ x ∈ s2) →
      dedupKeepFirstAux s1 l = dedupKeepFirstAux s2 l := by
  intro l
  induction l with
  | nil => intro s1 s2 _; rfl
  | cons b t ih =>
    intro s1 s2 hs
    by_cases hb : b ∈ s1
    · simp only [dedupKeepFirstAux, hb, if_true, (hs b).mp hb]
      exact ih hs
    · have hb2 : b ∉ s2 := fun h => hb ((hs b).mpr h)
      simp only [dedupKeepFirstAux, hb, hb2, if_false]
      refine congrArg _ (ih fun x => ?_)
      simp only [List.mem_cons]
      exact or_congr Iff.rfl (hs x)

theorem dedupKeepFirstAux_filter {γ : Type} [DecidableEq γ] (a : γ) :
    ∀ {l seen : List γ},
      dedupKeepFirstAux (a :: seen) l =
        dedupKeepFirstAux seen (l.filter (fun b => decide ¬(b = a))) := by
  intro l
  induction l with
  | nil => intro seen; rfl
  | cons b t ih =>
    intro seen
    by_cases hab : b = a
    · subst hab
      have hmem : b ∈ b :: seen := List.mem_cons_self b seen
      simp only [dedupKeepFirstAux, hmem, if_true, List.filter_cons]
      simpa using ih
    · have hd : (decide ¬(b = a)) = true := by simp [hab]
      by_cases hb : b ∈ seen
      · have hmem : b ∈ a :: seen := List.mem_cons_of_mem a hb
        simp only [dedupKeepFirstAux, hmem, if_true, List.filter_cons]
        rw [hd, if_pos rfl]
        simp only [dedupKeepFirstAux, hb, if_true]
        exact ih
      · have hbna : b ∉ a :: seen := by
          intro h
          rcases List.mem_cons.mp h with h | h
          · exact hab h
          · exact hb h
        simp only [dedupKeepFirstAux, hbna, if_false, List.filter_cons]
        rw [hd, if_pos rfl]
        simp only [dedupKeepFirstAux, hb, if_false]
        refine congrArg _ ?_
        calc dedupKeepFirstAux (b :: a :: seen) t
            = dedupKeepFirstAux (a :: b :: seen) t :=
              dedupKeepFirstAux_congr fun x => by
                simp only [List.mem_cons]
                tauto
          _ = dedupKeepFirstAux (b :: seen) (t.filter (fun b => decide ¬(b = a))) := ih

theorem dedupKeepFirst_nodup {γ : Type} [DecidableEq γ] (l : List γ) :
    (dedupKeepFirst l).Nodup :=
  nodup_dedupKeepFirstAux

theorem mem_dedupKeepFirst {γ : Type} [DecidableEq γ] {a : γ} {l : List γ} :
    a ∈ dedupKeepFirst l ↔ a ∈ l := by
  unfold dedupKeepFirst
  rw [mem_dedupKeepFirstAux]
  simp

theorem dedupKeepFirst_cons {γ : Type} [DecidableEq γ] (a : γ) (l : List γ) :
    dedupKeepFirst (a :: l) =
      a :: dedupKeepFirst (l.filter (fun b => decide ¬(b = a))) := by
  unfold dedupKeepFirst
  simp only [dedupKeepFirstAux, List.not_mem_nil, if_false]
  exact congrArg _ (dedupKeepFirstAux_filter a)

theorem le_indexOfFrom {l : List Char} {c : Char} {start j : Nat}
    (h : indexOfFrom l c start = some j) : start ≤ j := by
  unfold indexOfFrom at h
  cases hf : (l.drop start).findIdx? (fun d => d = c) with
  | none => rw [hf] at h; cases h
  | some k =>
    rw [hf] at h
    cases h
    exact Nat.le_add_right start k

theorem windowEnd_ge (sec : List Char) (chunkSize index : Nat) :
    index + chunkSize ≤ windowEnd sec chunkSize index := by
  unfold windowEnd
  by_cases h : index + chunkSize < sec.length
  · simp only [h, if_true]
    cases hf : indexOfFrom sec ' ' (index + chunkSize) with
    | none => exact le_refl _
    | some j => exact le_indexOfFrom hf
  · simp [h]

theorem windowLoop_step {sec : List Char} {chunkSize overlap fuel index : Nat}
    (h : index < sec.length) :
    windowLoop sec chunkSize overlap (fuel + 1) index =
      if jsTrim (jsSlice sec index (windowEnd sec chunkSize index)) = [] then
        windowLoop sec chunkSize overlap fuel (index + (chunkSize - overlap))
      else
        jsTrim (jsSlice sec index (windowEnd sec chunkSize index)) ::
          windowLoop sec chunkSize overlap fuel (index + (chunkSize - overlap)) := by
  simp only [windowLoop, h, if_true]

theorem windowLoop_stop {sec : List Char} {chunkSize overlap : Nat} :
    ∀ {fuel index : Nat}, sec.length ≤ index →
      windowLoop sec chunkSize overlap fuel index = [] := by
  intro fuel index h
  cases fuel with
  | zero => rfl
  | succ fuel => simp [windowLoop, Nat.not_lt.mpr h]

theorem getElem_mem_jsSlice {l : List Char} {a b p : Nat} (h1 : a ≤ p)
    (h2 : p < b) (h3 : p < l.length) : l[p] ∈ jsSlice l a b := by
  unfold jsSlice
  have hlen : p - a < ((l.drop a).take (b - a)).length := by
    simp only [List.length_take, List.length_drop]
    omega
  have hdrop : p - a < (l.drop a).length := by
    simp only [List.length_drop]
    omega
  have heq : ((l.drop a).take (b - a))[p - a] = l[p] := by
    rw [List.getElem_take, List.getElem_drop]
    congr 1
    omega
  rw [← heq]
  exact List.getElem_mem hlen

theorem windowLoop_coverage {sec : List Char} {chunkSize overlap : Nat}
    (hov : overlap < chunkSize) :
    ∀ (fuel index p : Nat) (hp : p < sec.length),
      sec.length - index ≤ fuel → index ≤ p →
      isJsWhitespace sec[p] = false →
      sec[p] ∈ (windowLoop sec chunkSize overlap fuel index).flatten := by
  intro fuel
  induction fuel with
  | zero =>
    intro index p hp hf hip _
    omega
  | succ fuel ih =>
    intro index p hp hf hip hw
    have hidx : index < sec.length := lt_of_le_of_lt hip hp
    rw [windowLoop_step hidx]
    have hecs : index + chunkSize ≤ windowEnd sec chunkSize index :=
      windowEnd_ge sec chunkSize index
    by_cases hpe : p < windowEnd sec chunkSize index
    · have hmem : sec[p] ∈ jsSlice sec index (windowEnd sec chunkSize index) :=
        getElem_mem_jsSlice hip hpe hp
      have hchunk : sec[p] ∈ jsTrim (jsSlice sec index (windowEnd sec chunkSize index)) :=
        mem_jsTrim hmem hw
      rw [if_neg (List.ne_nil_of_mem hchunk)]
      simp only [List.flatten_cons]
      exact List.mem_append_left _ hchunk
    · have hpe' : windowEnd sec chunkSize index ≤ p := Nat.not_lt.mp hpe
      have hnext : index + (chunkSize - overlap) ≤ p := by omega
      have hf' : sec.length - (index + (chunkSize - overlap)) ≤ fuel := by omega
      have hrec := ih (index + (chunkSize - overlap)) p hp hf' hnext hw
      by_cases hc : jsTrim (jsSlice sec index (windowEnd sec chunkSize index)) = []
      · rw [if_pos hc]
        exact hrec
      · rw [if_neg hc]
        simp only [List.flatten_cons]
        exact List.mem_append_right _ hrec

theorem windowLoopPos_map_snd {sec : List Char} {chunkSize overlap : Nat} :
    ∀ (fuel index : Nat),
      (windowLoopPos sec chunkSize overlap fuel index).map Prod.snd =
        windowLoop sec chunkSize overlap fuel index := by
  intro fuel
  induction fuel with
  | zero => intro index; rfl
  | succ fuel ih =>
    intro index
    by_cases h : index < sec.length
    · simp only [windowLoopPos, windowLoop, h, if_true]
      by_cases hc : jsTrim (jsSlice sec index (windowEnd sec chunkSize index)) = []
      · rw [if_pos hc, if_pos hc]
        exact ih _
      · rw [if_neg hc, if_neg hc, List.map_cons]
        rw [ih]
    · simp [windowLoopPos, windowLoop, h]

theorem windowLoopPos_lb {sec : List Char} {chunkSize overlap : Nat} :
    ∀ {fuel index : Nat} {q : Nat × List Char},
      q ∈ windowLoopPos sec chunkSize overlap fuel index → index ≤ q.1 := by
  intro fuel
  induction fuel with
  | zero => intro index q h; cases h
  | succ fuel ih =>
    intro index q h
    by_cases hi : index < sec.length
    · simp only [windowLoopPos, hi, if_true] at h
      by_cases hc : jsTrim (jsSlice sec index (windowEnd sec chunkSize index)) = []
      · rw [if_pos hc] at h
        exact le_trans (Nat.le_add_right _ _) (ih h)
      · rw [if_neg hc] at h
        rcases List.mem_cons.mp h with rfl | h
        · exact le_refl _
        · exact le_trans (Nat.le_add_right _ _) (ih h)
    · simp [windowLoopPos, hi] at h

theorem windowLoopPos_sorted {sec : List Char} {chunkSize overlap : Nat}
    (hov : overlap < chunkSize) :
    ∀ (fuel index : Nat),
      ((windowLoopPos sec chunkSize overlap fuel index).map Prod.fst).Sorted (· < ·) := by
  intro fuel
  induction fuel with
  | zero => intro index; simp [windowLoopPos]
  | succ fuel ih =>
    intro index
    by_cases hi : index < sec.length
    · simp only [windowLoopPos, hi, if_true]
      by_cases hc : jsTrim (jsSlice sec index (windowEnd sec chunkSize index)) = []
      · rw [if_pos hc]
        exact ih _
      · rw [if_neg hc]
        simp only [List.map_cons]
        rw [List.sorted_cons]
        refine ⟨?_, ih _⟩
        intro b hb
        rcases List.mem_map.mp hb with ⟨q, hq, rfl⟩
        have h1 : index + (chunkSize - overlap) ≤ q.1 := windowLoopPos_lb hq
        omega
    · simp [windowLoopPos, hi]

theorem chunksOfSectionPos_map_snd (chunkSize overlap : Nat) (sec : List Char) :
    (chunksOfSectionPos chunkSize overlap sec).map Prod.snd =
      chunksOfSection chunkSize overlap sec := by
  unfold chunksOfSectionPos chunksOfSection
  by_cases h1 : sec.length ≤ chunkSize
  · by_cases h2 : jsTrim sec = [] <;> simp [h1, h2]
  · simp only [h1, if_false]
    exact windowLoopPos_map_snd _ _

theorem chunksOfSectionPos_sorted {chunkSize overlap : Nat}
    (hov : overlap < chunkSize) (sec : List Char) :
    ((chunksOfSectionPos chunkSize overlap sec).map Prod.fst).Sorted (· < ·) := by
  unfold chunksOfSectionPos
  by_cases h1 : sec.length ≤ chunkSize
  · by_cases h2 : jsTrim sec = [] <;> simp [h1, h2]
  · simp only [h1, if_false]
    exact windowLoopPos_sorted hov _ _

theorem splitTextIntoChunksPos_map_snd (text : List Char) (chunkSize overlap : Nat) :
    (splitTextIntoChunksPos text chunkSize overlap).map Prod.snd =
      splitTextIntoChunks text chunkSize overlap := by
  unfold splitTextIntoChunksPos splitTextIntoChunks
  rw [List.map_flatten, List.map_map]
  congr 1
  exact List.map_congr_left fun sec _ => chunksOfSectionPos_map_snd chunkSize overlap sec

theorem splitTextIntoChunksPos_sorted {chunkSize overlap : Nat}
    (hov : overlap < chunkSize) (text : List Char) :
    ((splitTextIntoChunksPos text chunkSize overlap).map Prod.fst).Sorted (· < ·) := by
  unfold splitTextIntoChunksPos
  rw [splitSections_cleanText]
  simpa using chunksOfSectionPos_sorted hov (cleanText text)

theorem splitTextIntoChunks_coverage {chunkSize overlap : Nat}
    (hov : overlap < chunkSize) {text : List Char} {c : Char}
    (hc : c ∈ cleanText text) (hw : isJsWhitespace c = false) :
    c ∈ (splitTextIntoChunks text chunkSize overlap).flatten := by
  unfold splitTextIntoChunks
  rw [splitSections_cleanText]
  simp only [List.map_cons, List.map_nil, List.flatten_cons, List.flatten_nil,
    List.append_nil]
  unfold chunksOfSection
  by_cases hlen : (cleanText text).length ≤ chunkSize
  · by_cases ht : jsTrim (cleanText text) = []
    · have := jsTrim_eq_nil ht c hc
      rw [hw] at this
      cases this
    · rw [if_pos hlen, if_neg ht]
      simpa using mem_jsTrim hc hw
  · rw [if_neg hlen]
    rcases List.mem_iff_getElem.mp hc with ⟨p, hp, heq⟩
    rw [← heq]
    exact windowLoop_coverage hov (cleanText text).length 0 p hp (by omega)
      (Nat.zero_le p) (heq ▸ hw)

theorem docsOfFile_length_le (name text : List Char) :
    (docsOfFile name text).length ≤ 50 := by
  unfold docsOfFile
  calc (List.filterMap _ _).length
      ≤ ((splitTextIntoChunks (cleanText text) 120 15).take 50).enum.length :=
        List.length_filterMap_le _ _
    _ = ((splitTextIntoChunks (cleanText text) 120 15).take 50).length :=
        List.enum_length
    _ ≤ 50 := List.length_take_le _ _

theorem mem_docsOfFile {name text : List Char} {d : Doc}
    (h : d ∈ docsOfFile name text) :
    ∃ i, i < 50 ∧ (splitTextIntoChunks (cleanText text) 120 15)[i]? = some d.pageContent ∧
      d.page = i / 2 + 1 ∧ d.source = name := by
  unfold docsOfFile at h
  rcases List.mem_filterMap.mp h with ⟨p, hp, he⟩
  obtain ⟨i, chunk⟩ := p
  by_cases ht : jsTrim chunk = []
  · rw [if_pos ht] at he
    cases he
  · rw [if_neg ht] at he
    have hd : d = ⟨chunk, name, i / 2 + 1⟩ := (Option.some.inj he).symm
    subst hd
    have h1 : i < ((splitTextIntoChunks (cleanText text) 120 15).take 50).length :=
      List.fst_lt_of_mem_enum hp
    have h2 : i < 50 := lt_of_lt_of_le h1 (List.length_take_le _ _)
    refine ⟨i, h2, ?_, rfl, rfl⟩
    have h3 : ((splitTextIntoChunks (cleanText text) 120 15).take 50)[i]? = some chunk :=
      List.mk_mem_enum_iff_getElem?.mp hp
    rw [← List.getElem?_take_of_lt h2]
    exact h3

theorem relevantDocsOf_length_le (α : Type) [LinearOrder α]
    (sim : List ℚ → List ℚ → α) (docs : List Doc)
    (docEmbeddings : List (List ℚ)) (queryEmbedding : List ℚ) :
    (relevantDocsOf α sim docs docEmbeddings queryEmbedding).length ≤ 2 := by
  unfold relevantDocsOf findSimilarDocuments rankDocs
  rw [List.length_map]
  exact List.length_take_le _ _

theorem mem_relevantDocsOf {α : Type} [LinearOrder α]
    {sim : List ℚ → List ℚ → α} {docs : List Doc}
    {docEmbeddings : List (List ℚ)} {queryEmbedding : List ℚ} {d : Doc}
    (h : d ∈ relevantDocsOf α sim docs docEmbeddings queryEmbedding) :
    d ∈ docs := by
  unfold relevantDocsOf findSimilarDocuments at h
  exact mem_rankDocs h

/-- C4 (counterexample): feeding the scavenger the byte stream
`/Tj (Hello world)`, in which the literal `(Hello world)` is caught both by
the bare-parentheses pass and by the `/Tj` pass, produces the final text
"Hello world Hello world" — the literal appears twice, not once, because
the sentence split `[.!?]\s+` finds no sentence boundary in it. -/
theorem scavenger_dedup_counterexample_c4 :
    extractBasicPdfText (some (("/Tj (Hello world)").toList)) =
      ("Hello world").toList ++ ' ' :: ("Hello world").toList ∧
    extractBasicPdfText (some (("/Tj (Hello world)").toList)) ≠
      ("Hello world").toList := by
  exact ⟨rfl, by decide⟩

/-- C4 (amended): the scavenger deduplicates at sentence granularity —
the final text is the `". "`-join of the order-preserving, first-occurrence
deduplication of the sentence split of the cleaned concatenation of all
pass fragments; the deduplicated list holds each distinct sentence exactly
once (it is duplicate-free, keeps exactly the members, and keeps the first
occurrence first). A literal repeated by two passes without
sentence-ending punctuation lies inside a single sentence and therefore
appears twice in the final text, as on the `/Tj (Hello world)` stream. -/
theorem scavenger_dedup_c4 :
    (∀ decoded : List Char,
      extractCore decoded =
        List.intercalate ((". ").toList)
          (dedupKeepFirst (splitSentences (cleanupExtracted
            (List.intercalate ((" ").toList) (textFragments decoded)))))) ∧
    (∀ l : List (List Char), (dedupKeepFirst l).Nodup) ∧
    (∀ (a : List Char) (l : List (List Char)), a ∈ dedupKeepFirst l ↔ a ∈ l) ∧
    (∀ (a : List Char) (l : List (List Char)),
      dedupKeepFirst (a :: l) =
        a :: dedupKeepFirst (l.filter (fun b => decide ¬(b = a)))) ∧
    extractBasicPdfText (some (("/Tj (Hello world)").toList)) =
      ("Hello world").toList ++ ' ' :: ("Hello world").toList := by
  refine ⟨fun decoded => rfl, fun l => dedupKeepFirst_nodup l,
    fun a l => mem_dedupKeepFirst, fun a l => dedupKeepFirst_cons a l, rfl⟩

/-- C5: the scavenger never fails: for every decode outcome the result is a
non-empty string; a failed base64 decode yields the distinct fixed decode
message, and an extraction shorter than 10 characters yields the fixed
scanned-or-image-based placeholder. -/
theorem scavenger_total_c5 (d : Option (List Char)) :
    extractBasicPdfText d ≠ [] ∧
    (d = none → extractBasicPdfText d = decodeErrorMessage) ∧
    (∀ s, d = some s → (extractCore s).length < 10 →
      extractBasicPdfText d = scannedMessage) := by
  cases d with
  | none =>
    exact ⟨by decide, fun _ => rfl, fun s hs => by cases hs⟩
  | some s =>
    refine ⟨?_, fun h => Option.noConfusion h, fun t ht hlen => ?_⟩
    · show (if (extractCore s).length < 10 then scannedMessage
        else if extractCore s = [] then unableMessage else extractCore s) ≠ []
      by_cases h10 : (extractCore s).length < 10
      · rw [if_pos h10]
        decide
      · have hne : extractCore s ≠ [] := by
          intro he
          exact h10 (by simp [he])
        rw [if_neg h10, if_neg hne]
        exact hne
    · have hts : t = s := (Option.some.inj ht).symm
      subst hts
      show (if (extractCore t).length < 10 then scannedMessage
        else if extractCore t = [] then unableMessage else extractCore t) = scannedMessage
      rw [if_pos hlen]

/-- C5 (witness): the theorem applied at the failed decode and at the empty
stream. -/
theorem scavenger_total_c5_witness :
    extractBasicPdfText none = decodeErrorMessage ∧
      extractBasicPdfText (some []) = scannedMessage :=
  ⟨(scavenger_total_c5 none).2.1 rfl,
   (scavenger_total_c5 (some [])).2.2 [] rfl (by decide)⟩

/-- C7 (counterexample): for the input `"a\n\nb"` — two sections of length
1 separated by a blank line, both well within `maxChunkSize = 120` — the
chunker emits the single chunk `"a b"` spanning the blank-line boundary,
not the two section chunks `"a"` and `"b"`. -/
theorem chunker_blank_line_counterexample_c7 :
    splitTextIntoChunks (("a\n\nb").toList) 120 15 = [['a', ' ', 'b']] ∧
    splitTextIntoChunks (("a\n\nb").toList) 120 15 ≠ [['a'], ['b']] := by
  exact ⟨rfl, by decide⟩

/-- C7 (amended): `cleanText` collapses every whitespace run — including
blank lines — to a single space before the `\n{2,}` split runs, so the
split never fires: the cleaned text is always a single section, and any
input whose cleaned text fits in `maxChunkSize` is emitted as one chunk
(blank-line boundaries are not preserved). -/
theorem chunker_single_section_c7 (text : List Char) (chunkSize overlap : Nat) :
    splitSections (cleanText text) = [cleanText text] ∧
    ((cleanText text).length ≤ chunkSize →
      splitTextIntoChunks text chunkSize overlap =
        if jsTrim (cleanText text) = [] then [] else [jsTrim (cleanText text)]) := by
  refine ⟨splitSections_cleanText text, fun hlen => ?_⟩
  unfold splitTextIntoChunks
  rw [splitSections_cleanText]
  simp only [List.map_cons, List.map_nil, List.flatten_cons, List.flatten_nil,
    List.append_nil]
  unfold chunksOfSection
  rw [if_pos hlen]

/-- C7 (witness): the amended theorem applied to the blank-line input. -/
theorem chunker_single_section_c7_witness :
    splitTextIntoChunks (("a\n\nb").toList) 120 15 =
      if jsTrim (cleanText (("a\n\nb").toList)) = [] then []
      else [jsTrim (cleanText (("a\n\nb").toList))] :=
  (chunker_single_section_c7 (("a\n\nb").toList) 120 15).2 (by decide)

/-- C8: under the precondition `overlap < chunkSize` the sliding-window
loop terminates: its result is independent of the fuel once the fuel
covers the remaining section length (each iteration advances the window
start by `chunkSize - overlap ≥ 1`), so `splitTextIntoChunks` — which runs
the loop with fuel equal to the section length — is a total function of
its inputs. -/
theorem chunker_terminates_c8 {sec : List Char} {chunkSize overlap : Nat}
    (hov : overlap < chunkSize) :
    ∀ (fuel1 fuel2 index : Nat), sec.length - index ≤ fuel1 →
      sec.length - index ≤ fuel2 →
      windowLoop sec chunkSize overlap fuel1 index =
        windowLoop sec chunkSize overlap fuel2 index := by
  intro fuel1
  induction fuel1 with
  | zero =>
    intro fuel2 index h1 _
    have hle : sec.length ≤ index := by omega
    rw [windowLoop_stop hle, windowLoop_stop hle]
  | succ fuel1 ih =>
    intro fuel2 index h1 h2
    by_cases hidx : index < sec.length
    · cases fuel2 with
      | zero => omega
      | succ fuel2 =>
        rw [windowLoop_step hidx, windowLoop_step hidx,
          ih fuel2 (index + (chunkSize - overlap)) (by omega) (by omega)]
    · have hle : sec.length ≤ index := Nat.not_lt.mp hidx
      rw [windowLoop_stop hle, windowLoop_stop hle]

/-- C8 (witness): the theorem applied with the canonical fuel and a larger
one on a concrete section. -/
theorem chunker_terminates_c8_witness :
    windowLoop (("abcdefgh").toList) 3 1 8 0 =
      windowLoop (("abcdefgh").toList) 3 1 100 0 :=
  chunker_terminates_c8 (by omega) 8 100 0 (by decide) (by decide)

/-- C1: for every list of chunks and every query, the vector retriever
returns the first `k` entries of the stable descending sort by score:
`rankDocs` is the `k`-prefix of the sorted pairs; the sorted pairs are
descending, a permutation of the input, and stable (the sublist at each
fixed score equals the sublist of the input at that score, so original order is
preserved on ties); and on the example given in the spec — query `[1,0]` against
candidates embedded as `[0,1]` and `[1,0]` with cosine similarity — the
`[1,0]` candidate ranks first and the `[0,1]` candidate second. -/
theorem vector_retriever_c1 :
    (∀ (α β : Type) [_inst : LinearOrder α] (scores : List α) (docs : List β) (k : Nat),
      rankDocs scores docs k = ((rankPairs (scores.zip docs)).take k).map Prod.snd ∧
      List.Sorted (fun p q => q.1 ≤ p.1) (rankPairs (scores.zip docs)) ∧
      (rankPairs (scores.zip docs)).Perm (scores.zip docs) ∧
      (∀ s : α, (rankPairs (scores.zip docs)).filter (fun x => decide (x.1 = s)) =
        (scores.zip docs).filter (fun x => decide (x.1 = s)))) ∧
    findSimilarDocuments ℝ cosineSimilarity [exDocB, exDocC] [[0, 1], [1, 0]] [1, 0] 2 =
      [exDocC, exDocB] := by
  constructor
  · intro α β inst scores docs k
    exact ⟨rfl, rankPairs_sorted _, rankPairs_perm _, fun s => rankPairs_filter s _⟩
  · have h0 : cosineSimilarity [1, 0] [0, 1] = 0 := by
      unfold cosineSimilarity dotProduct
      norm_num
    have h1 : cosineSimilarity [1, 0] [1, 0] = 1 := by
      unfold cosineSimilarity dotProduct
      norm_num [Real.sqrt_one]
    show rankDocs ([[(0:ℚ), 1], [1, 0]].map (fun e => cosineSimilarity [1, 0] e))
      [exDocB, exDocC] 2 = [exDocC, exDocB]
    rw [List.map_cons, List.map_cons, List.map_nil, h0, h1]
    unfold rankDocs rankPairs
    rw [List.zip_cons_cons, List.zip_cons_cons, List.zip_nil_left]
    show (((List.orderedInsert _ ((0:ℝ), exDocB)
      (List.orderedInsert _ ((1:ℝ), exDocC) []))).take 2).map Prod.snd = _
    rw [List.orderedInsert, List.orderedInsert,
      if_neg (by norm_num : ¬((1:ℝ) ≤ 0))]
    rw [List.orderedInsert]
    rfl

/-- C2 (counterexample): with the embedding collaborator absent the
pipeline answers the fixed degraded-service message with no citations and
performs no retrieval; with the collaborator erroring it answers the fixed
analysis-error message with no citations — in neither case does it switch
to any lexical retrieval path. -/
theorem embedding_fallback_counterexample_c2 :
    chatPipeline ℚ (fun _ _ => 0) false [(("f.txt").toList, ("hello").toList)]
        ("q".toList) (.ok ([[1]], [1])) (fun _ => .ok (("ans").toList)) =
      ⟨serviceUnavailableMessage, none⟩ ∧
    chatPipeline ℚ (fun _ _ => 0) true [(("f.txt").toList, ("hello").toList)]
        ("q".toList) (.error ()) (fun _ => .ok (("ans").toList)) =
      ⟨analysisErrorMessage, none⟩ :=
  ⟨rfl, rfl⟩

/-- C2 (amended): whenever the embedding collaborator is absent the
pipeline returns the fixed service-unavailable message with no citations,
and whenever the embedding call errors (with documents built) it returns
the fixed analysis-error message with no citations; no retrieval result is
produced in either case (the chat route has no lexical fallback path). -/
theorem embedding_fallback_c2 (α : Type) [_inst : LinearOrder α]
    (sim : List ℚ → List ℚ → α) (files : List (List Char × List Char))
    (question : List Char) (embedResult : Except Unit (List (List ℚ) × List ℚ))
    (llm : List Char → Except Unit (List Char)) :
    chatPipeline α sim false files question embedResult llm =
      ⟨serviceUnavailableMessage, none⟩ ∧
    (∀ docs, buildDocs files = .ok docs → files ≠ [] → docs ≠ [] →
      chatPipeline α sim true files question (.error ()) llm =
        ⟨analysisErrorMessage, none⟩) := by
  constructor
  · rfl
  · intro docs hb hf hd
    show (if files = [] then (⟨uploadPromptMessage, none⟩ : ChatResponse)
      else match buildDocs files with
        | .error m => ⟨m, none⟩
        | .ok docs =>
          if docs = [] then ⟨noUsefulContentMessage, none⟩
          else
            match (.error () : Except Unit (List (List ℚ) × List ℚ)) with
            | .error _ => ⟨analysisErrorMessage, none⟩
            | .ok (docEmbeddings, queryEmbedding) =>
              ⟨match llm (promptOf (contextOf α sim docs docEmbeddings queryEmbedding) question) with
                | .ok r => r
                | .error _ => llmErrorMessage,
               some (citationsOf α sim docs docEmbeddings queryEmbedding)⟩) =
      ⟨analysisErrorMessage, none⟩
    rw [if_neg hf, hb]
    simp only [hd, if_false]

/-- C2 (witness): the amended theorem applied at a concrete request. -/
theorem embedding_fallback_c2_witness :
    chatPipeline ℚ (fun _ _ => 0) true [(("f.txt").toList, ("hello").toList)]
        ("q".toList) (.error ()) (fun _ => .ok (("ans").toList)) =
      ⟨analysisErrorMessage, none⟩ :=
  (embedding_fallback_c2 ℚ (fun _ _ => 0) [(("f.txt").toList, ("hello").toList)]
      ("q".toList) (.error ()) (fun _ => .ok (("ans").toList))).2
    [⟨("hello").toList, ("f.txt").toList, 1⟩] rfl (by decide) (by decide)

/-- C3 (counterexample): a request whose single chunk is the 5-character
text "hello" (well under 150 characters) yields the citation snippet
"hello..." — the ellipsis is appended even though the chunk was not
truncated, so a chunk of 150 characters or fewer is not reproduced
unmodified. -/
theorem citation_counterexample_c3 :
    chatPipeline ℝ cosineSimilarity true [(("f.txt").toList, ("hello").toList)]
        ("q".toList) (.ok ([[1]], [1])) (fun _ => .ok (("ans").toList)) =
      ⟨("ans").toList, some [⟨("hello...").toList, ("f.txt").toList, 1⟩]⟩ ∧
    (("hello").toList).length ≤ 150 ∧
    ("hello...").toList ≠ ("hello").toList := by
  exact ⟨rfl, by decide, by decide⟩

/-- C3 (amended): every emitted citation takes the first 150 characters of
the cleaned chunk and always appends "..." (so its snippet is at most 153
characters and is ellipsis-terminated whether or not the chunk was
truncated); its page number is `floor(ordinal / 2) + 1`, an integer at
least 1 for every ordinal, and every citation arises from a ranked
document. -/
theorem citation_wellformed_c3 :
    (∀ d : Doc,
      (mkCitation d).text = (cleanText d.pageContent).take 150 ++ ("...").toList ∧
      (mkCitation d).text.length ≤ 153 ∧ 1 ≤ (mkCitation d).page) ∧
    (∀ (name text : List Char) (d : Doc), d ∈ docsOfFile name text →
      ∃ i, i < 50 ∧ d.page = i / 2 + 1) ∧
    (∀ i : Nat, 1 ≤ i / 2 + 1) ∧
    (∀ (α : Type) [_inst : LinearOrder α] (sim : List ℚ → List ℚ → α)
      (docs : List Doc) (docEmbeddings : List (List ℚ)) (queryEmbedding : List ℚ)
      (c : Citation), c ∈ citationsOf α sim docs docEmbeddings queryEmbedding →
      ∃ d ∈ docs, c = mkCitation d) := by
  refine ⟨fun d => ⟨rfl, ?_, ?_⟩, fun name text d hd => ?_, fun i => Nat.le_add_left 1 _, ?_⟩
  · show ((cleanText d.pageContent).take 150 ++ ("...").toList).length ≤ 153
    rw [List.length_append]
    have h1 : ((cleanText d.pageContent).take 150).length ≤ 150 := List.length_take_le _ _
    have h2 : (("...").toList).length = 3 := rfl
    omega
  · show 1 ≤ (if d.page = 0 then 1 else d.page)
    by_cases h : d.page = 0
    · rw [if_pos h]
    · rw [if_neg h]
      omega
  · rcases mem_docsOfFile hd with ⟨i, hi, _, hp, _⟩
    exact ⟨i, hi, hp⟩
  · intro α inst sim docs docEmbeddings queryEmbedding c hc
    rcases List.mem_map.mp hc with ⟨d, hd, rfl⟩
    exact ⟨d, mem_relevantDocsOf hd, rfl⟩

/-- C3 (witness): the amended theorem applied at a concrete citation of a
concrete pipeline run. -/
theorem citation_wellformed_c3_witness :
    ∃ d ∈ docsOfFile (("f.txt").toList) (("hello").toList),
      (⟨("hello...").toList, ("f.txt").toList, 1⟩ : Citation) = mkCitation d :=
  citation_wellformed_c3.2.2.2 ℚ (fun _ _ => 0)
    (docsOfFile (("f.txt").toList) (("hello").toList)) [[1]] [1]
    ⟨("hello...").toList, ("f.txt").toList, 1⟩ (by decide)

/-- C6: under the documented chunker precondition `overlap < chunkSize`,
every non-whitespace character of the cleaned source text appears in the
concatenation of the emitted chunks, and the chunks are emitted in source
position order: the chunk list is the projection of the
position-instrumented chunk list, whose recorded source positions are
strictly increasing (so list order — the ordinal order — matches position
order). -/
theorem chunker_coverage_c6 {chunkSize overlap : Nat} (hov : overlap < chunkSize)
    (text : List Char) :
    (∀ c : Char, c ∈ cleanText text → isJsWhitespace c = false →
      c ∈ (splitTextIntoChunks text chunkSize overlap).flatten) ∧
    splitTextIntoChunks text chunkSize overlap =
      (splitTextIntoChunksPos text chunkSize overlap).map Prod.snd ∧
    ((splitTextIntoChunksPos text chunkSize overlap).map Prod.fst).Sorted (· < ·) :=
  ⟨fun _ hc hw => splitTextIntoChunks_coverage hov hc hw,
    (splitTextIntoChunksPos_map_snd text chunkSize overlap).symm,
    splitTextIntoChunksPos_sorted hov text⟩

/-- C6 (witness): the theorem applied on a concrete oversized text. -/
theorem chunker_coverage_c6_witness :
    'h' ∈ (splitTextIntoChunks (("hello world").toList) 5 1).flatten :=
  (chunker_coverage_c6 (by omega) (("hello world").toList)).1 'h' (by decide) (by decide)

/-- C9: at most 2 chunks are ever selected for the answer: the ranking
call is made with `k` fixed to 2, the selected document list and the
citation list have length at most 2, the grounding context is the
blank-line join of the selected (at most 2) chunk texts, and any citation
list the pipeline returns has length at most 2. -/
theorem top_two_selection_c9 :
    (∀ (α : Type) [_inst : LinearOrder α] (sim : List ℚ → List ℚ → α)
      (docs : List Doc) (docEmbeddings : List (List ℚ)) (queryEmbedding : List ℚ),
      relevantDocsOf α sim docs docEmbeddings queryEmbedding =
        findSimilarDocuments α sim docs docEmbeddings queryEmbedding 2 ∧
      (relevantDocsOf α sim docs docEmbeddings queryEmbedding).length ≤ 2 ∧
      contextOf α sim docs docEmbeddings queryEmbedding =
        List.intercalate (("\n\n").toList)
          ((relevantDocsOf α sim docs docEmbeddings queryEmbedding).map Doc.pageContent) ∧
      (citationsOf α sim docs docEmbeddings queryEmbedding).length ≤ 2) ∧
    (∀ (α : Type) [_inst : LinearOrder α] (sim : List ℚ → List ℚ → α) (avail : Bool)
      (files : List (List Char × List Char)) (question : List Char)
      (embedResult : Except Unit (List (List ℚ) × List ℚ))
      (llm : List Char → Except Unit (List Char)) (cits : List Citation),
      (chatPipeline α sim avail files question embedResult llm).citations = some cits →
      cits.length ≤ 2) := by
  constructor
  · intro α inst sim docs docEmbeddings queryEmbedding
    refine ⟨rfl, relevantDocsOf_length_le α sim docs docEmbeddings queryEmbedding, rfl, ?_⟩
    show ((relevantDocsOf α sim docs docEmbeddings queryEmbedding).map mkCitation).length ≤ 2
    rw [List.length_map]
    exact relevantDocsOf_length_le α sim docs docEmbeddings queryEmbedding
  · intro α inst sim avail files question embedResult llm cits h
    cases avail with
    | false => simp [chatPipeline] at h
    | true =>
      simp only [chatPipeline] at h
      split at h
      · simp at h
      · split at h
        · simp at h
        · split at h
          · simp at h
          · split at h
            · simp at h
            · simp only [Option.some.injEq] at h
              subst h
              unfold citationsOf
              rw [List.length_map]
              apply relevantDocsOf_length_le

/-- C9 (witness): the theorem applied at a concrete successful request. -/
theorem top_two_selection_c9_witness :
    ([⟨("hello...").toList, ("f.txt").toList, 1⟩] : List Citation).length ≤ 2 :=
  top_two_selection_c9.2 ℚ (fun _ _ => 0) true [(("f.txt").toList, ("hello").toList)]
    ("q".toList) (.ok ([[1]], [1])) (fun _ => .ok (("ans").toList))
    [⟨("hello...").toList, ("f.txt").toList, 1⟩] (by decide)

/-- C10: per uploaded document only the first 50 chunks participate: the
document list built for a file has at most 50 entries, each of them is one
of the first 50 chunks (with its synthetic page derived from its
ordinal), and every ranked document — hence every context entry and every
citation — comes from that list, so a chunk with ordinal 50 or greater is
never embedded, never enters the context, and never yields a citation. -/
theorem chunk_cap_c10 (name text : List Char) (α : Type) [_inst : LinearOrder α]
    (sim : List ℚ → List ℚ → α) (docEmbeddings : List (List ℚ))
    (queryEmbedding : List ℚ) :
    (docsOfFile name text).length ≤ 50 ∧
    (∀ d ∈ docsOfFile name text, ∃ i, i < 50 ∧
      (splitTextIntoChunks (cleanText text) 120 15)[i]? = some d.pageContent ∧
      d.page = i / 2 + 1) ∧
    (∀ d ∈ relevantDocsOf α sim (docsOfFile name text) docEmbeddings queryEmbedding,
      d ∈ docsOfFile name text) ∧
    (∀ c ∈ citationsOf α sim (docsOfFile name text) docEmbeddings queryEmbedding,
      ∃ d ∈ docsOfFile name text, c = mkCitation d) := by
  refine ⟨docsOfFile_length_le name text, fun d hd => ?_, fun d hd => mem_relevantDocsOf hd, ?_⟩
  · rcases mem_docsOfFile hd with ⟨i, hi, hget, hp, _⟩
    exact ⟨i, hi, hget, hp⟩
  · intro c hc
    rcases List.mem_map.mp hc with ⟨d, hd, rfl⟩
    exact ⟨d, mem_relevantDocsOf hd, rfl⟩

/-- C10 (witness): the theorem applied at a concrete file and ranked
document. -/
theorem chunk_cap_c10_witness :
    (⟨("hello").toList, ("f.txt").toList, 1⟩ : Doc) ∈
      docsOfFile (("f.txt").toList) (("hello").toList) :=
  (chunk_cap_c10 (("f.txt").toList) (("hello").toList) ℚ (fun _ _ => 0) [[1]] [1]).2.2.1
    ⟨("hello").toList, ("f.txt").toList, 1⟩ (by decide)
